import Mathlib

/-!
The routine makeOscCovInvertedPdg24.

A shallow embedding of `macros/OscillationParams/makeOscCovInvertedPdg24.C`:
the routine that builds the PDG-2024 (inverted ordering) oscillation-parameter
name array, prior vector and diagonal covariance matrix and writes the three
objects to a file.

Numbers are kept in an arbitrary carrier `α` for the construction step and in
`ℚ` (the decimal literals read exactly) for the reference instance.
-/

namespace OscCov

/-! ## The containers the routine uses -/

/-- Dense matrix with row-major element storage, as `TMatrixT<double>`. -/
structure TMatrixT (α : Type) where
  fNrows : Nat
  fNcols : Nat
  fElements : List α
deriving DecidableEq

/-- Dense vector, as `TVectorT<double>`. -/
structure TVectorT (α : Type) where
  fNrows : Nat
  fElements : List α
deriving DecidableEq

/-- String object, as `TObjString`. -/
structure TObjString where
  fString : String
deriving DecidableEq

/-- Array of objects, as `TObjArray`; here it only ever holds `TObjString`s. -/
structure TObjArray where
  fName : String
  fCont : List TObjString
deriving DecidableEq

namespace TMatrixT

variable {α : Type}

/-- Constructor `TMatrixT(nrows, ncols)`: allocates `nrows * ncols` elements. -/
def new [Zero α] (nrows ncols : Nat) : TMatrixT α :=
  ⟨nrows, ncols, List.replicate (nrows * ncols) 0⟩

/-- Method `Zero()`: overwrites every stored element with 0. -/
def Zero [Zero α] (m : TMatrixT α) : TMatrixT α :=
  { m with fElements := m.fElements.map (fun _ => 0) }

/-- Read through `operator()(rown, coln)`; `none` when the index is outside the matrix. -/
def get (m : TMatrixT α) (rown coln : Nat) : Option α :=
  if rown < m.fNrows ∧ coln < m.fNcols then m.fElements[rown * m.fNcols + coln]? else none

/-- Write through `operator()(rown, coln) = v`; an index outside the matrix stores nothing. -/
def set (m : TMatrixT α) (rown coln : Nat) (v : α) : TMatrixT α :=
  if rown < m.fNrows ∧ coln < m.fNcols then
    { m with fElements := m.fElements.set (rown * m.fNcols + coln) v }
  else m

end TMatrixT

namespace TVectorT

variable {α : Type}

/-- Constructor `TVectorT(n, elements)`: copies the first `n` cells of a C array. -/
def new (n : Nat) (elements : Fin n → α) : TVectorT α :=
  ⟨n, List.ofFn elements⟩

/-- Read through `operator()(i)`; `none` when the index is outside the vector. -/
def get (v : TVectorT α) (i : Nat) : Option α :=
  if i < v.fNrows then v.fElements[i]? else none

end TVectorT

namespace TObjArray

/-- Constructor `TObjArray(s)`: an empty, unnamed array (the argument is only
an initial capacity). -/
def new (_s : Nat) : TObjArray := ⟨"", []⟩

/-- Method `SetName`. -/
def SetName (a : TObjArray) (name : String) : TObjArray := { a with fName := name }

/-- Method `Add`: appends after the last stored object. -/
def Add (a : TObjArray) (obj : TObjString) : TObjArray := { a with fCont := a.fCont ++ [obj] }

end TObjArray

/-! ## Section 3 of the routine: covariance matrix and prior vector -/

section Construction

variable {α : Type}

/-- Lines 86-90: `new TMatrixT<double>(N, N)`, `Zero()`, then the loop
`for (int i = 0; i < N; ++i) (*cov)(i, i) = parSigs[i]*parSigs[i];`. -/
def buildCov [Zero α] [Mul α] (N : Nat) (parSigs : Fin N → α) : TMatrixT α :=
  (List.finRange N).foldl
    (fun cov i => cov.set i.val i.val (parSigs i * parSigs i))
    (TMatrixT.new N N).Zero

/-- Line 91: `new TVectorT<double>(N, parVals)`. -/
def buildPrior (N : Nat) (parVals : Fin N → α) : TVectorT α :=
  TVectorT.new N parVals

/-- Lines 28-32: the name array, filled in table order. -/
def buildNameArray (names : List String) : TObjArray :=
  (List.finRange names.length).foldl
    (fun nameArray i => nameArray.Add ⟨names.get i⟩)
    ((TObjArray.new names.length).SetName "osc_param_names")

/-- The three in-memory artifacts of the routine. -/
structure Dataset (α : Type) where
  nameArray : TObjArray
  prior : TVectorT α
  cov : TMatrixT α
deriving DecidableEq

/-- The construction step for a names table and two C arrays of `N` cells,
where `N` is the number of entries of the names table
(`sizeof(names) / sizeof(names[0])`). -/
def construct [Zero α] [Mul α] (names : List String)
    (parVals parSigs : Fin names.length → α) : Dataset α :=
  { nameArray := buildNameArray names
    prior := buildPrior names.length parVals
    cov := buildCov names.length parSigs }

end Construction

/-! ## Sections 1 and 2 of the routine: the literal tables -/

/-- Lines 17-25: the names table. -/
def names : List String :=
  [ "PMNS_SIN_SQUARED_12",
    "PMNS_SIN_SQUARED_13",
    "PMNS_SIN_SQUARED_23",
    "PMNS_DELTA_MASS_SQUARED_21",
    "PMNS_DELTA_MASS_SQUARED_32",
    "PMNS_DELTA_CP",
    "PMNS_SIGN_MASS_SQUARED_32" ]

/-- Line 26: `constexpr int N = sizeof(names) / sizeof(names[0]);`. -/
abbrev N : Nat := names.length

/-- The two local C arrays of lines 39-40. -/
inductive Arr where
  | parVals
  | parSigs
deriving DecidableEq

/-- One assignment statement `arr[idx] = val;`. -/
structure Assign where
  arr : Arr
  idx : Nat
  val : ℚ
deriving DecidableEq

/-- Lines 43-80: the assignment statements that are not commented out, in
program order. -/
def assignments : List Assign :=
  [ ⟨.parVals, 0, 0.307⟩,
    ⟨.parSigs, 0, 0.013⟩,
    ⟨.parVals, 1, 2.19e-2⟩,
    ⟨.parSigs, 1, 0.07e-2⟩,
    ⟨.parVals, 2, 0.553⟩,
    ⟨.parSigs, 2, 0.024⟩,
    ⟨.parVals, 3, 7.53e-5⟩,
    ⟨.parSigs, 3, 0.18e-5⟩,
    ⟨.parVals, 4, 2.529e-3⟩,
    ⟨.parSigs, 4, 0.029e-3⟩,
    ⟨.parSigs, 5, 1.19⟩,
    ⟨.parSigs, 5, 0.22⟩,
    ⟨.parVals, 6, 0.5⟩,
    ⟨.parSigs, 6, 10.0⟩ ]

/-- The storage of the two local arrays `double parVals[N]; double parSigs[N];`.
They are declared without an initial value, so their content before the first
assignment is whatever the storage held; it is an input of the model. -/
structure Locals where
  parVals : Fin N → ℚ
  parSigs : Fin N → ℚ

/-- The C store `a[idx] = v` on an array of `n` cells. -/
def store {n : Nat} (a : Fin n → ℚ) (idx : Nat) (v : ℚ) : Fin n → ℚ :=
  fun k => if k.val = idx then v else a k

/-- Executes one assignment statement. -/
def Assign.exec (l : Locals) (s : Assign) : Locals :=
  match s.arr with
  | .parVals => { l with parVals := store l.parVals s.idx s.val }
  | .parSigs => { l with parSigs := store l.parSigs s.idx s.val }

/-- Executes a block of assignment statements in program order. -/
def execAll (stmts : List Assign) (l : Locals) : Locals :=
  stmts.foldl Assign.exec l

/-- The statements of a block that assign to cell `idx` of array `arr`. -/
def assignsTo (stmts : List Assign) (arr : Arr) (idx : Nat) : List Assign :=
  stmts.filter (fun s => decide (s.arr = arr ∧ s.idx = idx))

/-- The value of the last statement of a block that assigns to `arr[idx]`. -/
def lastAssigned (stmts : List Assign) (arr : Arr) (idx : Nat) : Option ℚ :=
  (assignsTo stmts arr idx).getLast?.map Assign.val

/-! ## Section 4 of the routine: the output file -/

/-- The objects the routine writes. -/
inductive TObject where
  | objArray (a : TObjArray)
  | objString (s : TObjString)
  | vector (v : TVectorT ℚ)
  | matrix (m : TMatrixT ℚ)
deriving DecidableEq

/-- A named entry of a file. -/
structure TKey where
  name : String
  obj : TObject
deriving DecidableEq

/-- The files on disk: the entries stored at each path (`none`: no file
there), and whether a file can be created for writing at a path. -/
structure Disk where
  content : String → Option (List TKey)
  writable : String → Bool

/-- A `TFile` handle; `zombie` is set when the file could not be opened. -/
structure TFile where
  fName : String
  zombie : Bool
deriving DecidableEq

/-- Constructor `TFile(name, "RECREATE")`: creates the file, replacing the one
that exists at the path by an empty one; when the file cannot be created
nothing on disk changes and the handle is a zombie. -/
def TFile.recreate (d : Disk) (name : String) : Disk × TFile :=
  if d.writable name then
    ({ d with content := fun p => if p = name then some [] else d.content p }, ⟨name, false⟩)
  else (d, ⟨name, true⟩)

/-- Appends one entry to the open file; the returned flag tells whether
anything was written (a zombie file takes nothing). -/
def TFile.WriteObject (d : Disk) (f : TFile) (obj : TObject) (name : String) : Disk × Bool :=
  if f.zombie then (d, false)
  else
    ({ d with content := fun p =>
        if p = f.fName then some ((d.content p).getD [] ++ [⟨name, obj⟩]) else d.content p },
     true)

/-- Method `TObjArray::Write(name, option)` into the current file: with
`kSingleKey` the whole array goes under one entry, otherwise every stored
object is written as an entry of its own. -/
def TObjArray.Write (d : Disk) (f : TFile) (a : TObjArray) (name : String)
    (kSingleKey : Bool) : Disk × Bool :=
  if kSingleKey then TFile.WriteObject d f (.objArray a) name
  else
    a.fCont.foldl
      (fun acc s =>
        let r := TFile.WriteObject acc.1 f (.objString s) name
        (r.1, acc.2 && r.2))
      (d, true)

/-- Method `TFile::Close()`: the entries already written stay as they are. -/
def TFile.Close (d : Disk) (_f : TFile) : Disk := d

/-- What is left once the routine returns. -/
structure Outcome where
  disk : Disk
  stdout : List String
  data : Dataset ℚ

/-- Default value of the `outfile` parameter. -/
def defaultOutfile : String := "oscCovInvertedPdg24.root"

/-- Lines 110-113: the text sent to `std::cout`, one line per `std::endl`. -/
def confirmation (outfile : String) : List String :=
  [ "Wrote " ++ outfile ++ " with:",
    "  • osc_param_names (TObjArray, single key)",
    "  • osc_param_priors (TVectorT<double>)",
    "  • osc_param_cov   (TMatrixT<double>)" ]

/-- The routine `void makeOscCovInvertedPdg24(const char* outfile)`, run on a
disk `d` with the storage of the local arrays initially holding `l0`. The results of
the constructor and of the three writes are not inspected. -/
def makeOscCovInvertedPdg24 (outfile : String) (d : Disk) (l0 : Locals) : Outcome :=
  let l := execAll assignments l0
  let data := construct names l.parVals l.parSigs
  let opened := TFile.recreate d outfile
  let f := opened.2
  let w1 := TObjArray.Write opened.1 f data.nameArray "osc_param_names" true
  let w2 := TFile.WriteObject w1.1 f (.vector data.prior) "osc_param_priors"
  let w3 := TFile.WriteObject w2.1 f (.matrix data.cov) "osc_param_cov"
  { disk := TFile.Close w3.1 f, stdout := confirmation outfile, data := data }

/-! ## Observations used to state the properties -/

/-- The diagonal entries of a matrix, top left to bottom right. -/
def TMatrixT.diagonal {α : Type} (m : TMatrixT α) : List (Option α) :=
  (List.range m.fNrows).map (fun i => m.get i i)

/-- The entries of a matrix off its diagonal, row by row. -/
def TMatrixT.offDiagonal {α : Type} (m : TMatrixT α) : List (Option α) :=
  (List.range m.fNrows).flatMap (fun i =>
    ((List.range m.fNcols).filter (fun j => decide (j ≠ i))).map (fun j => m.get i j))

/-- A matrix is a well-formed `n × n` matrix when both dimensions are `n` and
the storage holds `n * n` elements. -/
def TMatrixT.Square {α : Type} (m : TMatrixT α) (n : Nat) : Prop :=
  m.fNrows = n ∧ m.fNcols = n ∧ m.fElements.length = n * n

/-- Storage that holds 0 in every cell of both local arrays. -/
def zeroLocals : Locals := ⟨fun _ => 0, fun _ => 0⟩

/-- Storage that holds 1 in every cell of both local arrays. -/
def onesLocals : Locals := ⟨fun _ => 1, fun _ => 1⟩

/-- A disk without files on which every path can be written. -/
def emptyDisk : Disk := ⟨fun _ => none, fun _ => true⟩

/-- A disk without files on which no path can be written. -/
def readOnlyDisk : Disk := ⟨fun _ => none, fun _ => false⟩

/-! ## Lemmas about the containers -/

section ContainerLemmas

variable {α : Type}

/-- Row-major offsets determine the position: equal offsets of two in-range
positions come from the same row and column. -/
theorem offset_inj {n a b i j : Nat} (hb : b < n) (hj : j < n)
    (h : a * n + b = i * n + j) : a = i ∧ b = j := by
  have hn : 0 < n := by omega
  have ha : (a * n + b) / n = a := by
    rw [Nat.mul_comm, Nat.mul_add_div hn, Nat.div_eq_of_lt hb, Nat.add_zero]
  have hi : (i * n + j) / n = i := by
    rw [Nat.mul_comm, Nat.mul_add_div hn, Nat.div_eq_of_lt hj, Nat.add_zero]
  have hai : a = i := by rw [← ha, ← hi, h]
  subst hai
  exact ⟨rfl, by omega⟩

/-- The offset of an in-range position lies inside the storage. -/
theorem offset_lt {n a b : Nat} (ha : a < n) (hb : b < n) : a * n + b < n * n := by
  have h1 : (a + 1) * n ≤ n * n := Nat.mul_le_mul_right n ha
  have h2 : (a + 1) * n = a * n + n := by ring
  omega

theorem square_new_zero [Zero α] (n : Nat) :
    ((TMatrixT.new n n).Zero : TMatrixT α).Square n := by
  simp [TMatrixT.Square, TMatrixT.new, TMatrixT.Zero]

theorem get_new_zero [Zero α] {n a b : Nat} (ha : a < n) (hb : b < n) :
    ((TMatrixT.new n n).Zero : TMatrixT α).get a b = some 0 := by
  have h := offset_lt ha hb
  simp [TMatrixT.get, TMatrixT.new, TMatrixT.Zero, ha, hb, List.getElem?_replicate, h]

theorem square_set {m : TMatrixT α} {n : Nat} (h : m.Square n) (i j : Nat) (v : α) :
    (m.set i j v).Square n := by
  obtain ⟨h1, h2, h3⟩ := h
  unfold TMatrixT.set
  split <;> simp [TMatrixT.Square, h1, h2, h3]

theorem get_set_same {m : TMatrixT α} {n : Nat} (h : m.Square n) {i j : Nat}
    (hi : i < n) (hj : j < n) (v : α) : (m.set i j v).get i j = some v := by
  obtain ⟨h1, h2, h3⟩ := h
  have hlt := offset_lt hi hj
  simp [TMatrixT.set, TMatrixT.get, h1, h2, h3, hi, hj, List.getElem?_set, hlt]

theorem get_set_other {m : TMatrixT α} {n : Nat} (h : m.Square n) {i j a b : Nat}
    (hj : j < n) (hb : b < n) (hne : ¬ (a = i ∧ b = j)) (v : α) :
    (m.set i j v).get a b = m.get a b := by
  obtain ⟨h1, h2, h3⟩ := h
  unfold TMatrixT.set
  split
  · have hoff : i * n + j ≠ a * n + b := fun e => hne (offset_inj hb hj e.symm)
    simp [TMatrixT.get, h1, h2, List.getElem?_set, hoff]
  · rfl

/-- The diagonal-fill loop over any list of indices: a position holds the
square when it is a diagonal position whose index the loop visited, and keeps
what the matrix held otherwise. -/
theorem fill_get [Mul α] {n : Nat} (parSigs : Fin n → α) (l : List (Fin n))
    (m : TMatrixT α) (hm : m.Square n) (a b : Fin n) :
    (l.foldl (fun cov i => cov.set i.val i.val (parSigs i * parSigs i)) m).get a.val b.val
      = if a = b ∧ a ∈ l then some (parSigs a * parSigs a) else m.get a.val b.val := by
  induction l using List.reverseRecOn with
  | nil => simp
  | append_singleton l i ih =>
    rw [List.foldl_append]
    simp only [List.foldl_cons, List.foldl_nil]
    have hsq : (l.foldl (fun cov i => cov.set i.val i.val (parSigs i * parSigs i)) m).Square n := by
      clear ih
      induction l using List.reverseRecOn with
      | nil => simpa using hm
      | append_singleton l k ihk =>
        rw [List.foldl_append]
        exact square_set ihk _ _ _
    by_cases hab : a = i ∧ b = i
    · rw [hab.1, hab.2, get_set_same hsq i.isLt i.isLt]
      simp
    · have hne : ¬ (a.val = i.val ∧ b.val = i.val) := by
        intro h
        exact hab ⟨Fin.ext h.1, Fin.ext h.2⟩
      rw [get_set_other hsq i.isLt b.isLt hne, ih]
      by_cases hd : a = b
      · subst hd
        have hai : a ≠ i := fun e => hab ⟨e, e⟩
        simp [hai]
      · simp [hd]

/-- The diagonal-fill loop keeps the matrix a well-formed `n × n` matrix. -/
theorem fill_square [Mul α] {n : Nat} (parSigs : Fin n → α) (l : List (Fin n))
    (m : TMatrixT α) (hm : m.Square n) :
    (l.foldl (fun cov i => cov.set i.val i.val (parSigs i * parSigs i)) m).Square n := by
  induction l generalizing m with
  | nil => simpa using hm
  | cons i l ih => exact ih _ (square_set hm _ _ _)

theorem buildCov_square [Zero α] [Mul α] (n : Nat) (parSigs : Fin n → α) :
    (buildCov n parSigs).Square n :=
  fill_square parSigs _ _ (square_new_zero n)

/-- Every entry of the matrix built by the construction step. -/
theorem buildCov_get [Zero α] [Mul α] (n : Nat) (parSigs : Fin n → α) (a b : Fin n) :
    (buildCov n parSigs).get a.val b.val
      = some (if a = b then parSigs a * parSigs a else 0) := by
  unfold buildCov
  rw [fill_get parSigs _ _ (square_new_zero n)]
  by_cases h : a = b
  · simp [h, List.mem_finRange]
  · simp [h, get_new_zero a.isLt b.isLt]

/-- Outside the matrix there is no entry. -/
theorem buildCov_get_none [Zero α] [Mul α] (n : Nat) (parSigs : Fin n → α) (a b : Nat)
    (h : ¬ (a < n ∧ b < n)) : (buildCov n parSigs).get a b = none := by
  obtain ⟨h1, h2, _⟩ := buildCov_square n parSigs
  simp only [TMatrixT.get, h1, h2]
  rw [if_neg h]

end ContainerLemmas

/-! ## Lemmas about the routine -/

/-- The in-memory artifacts do not depend on the disk or the file name. -/
theorem data_eq (outfile : String) (d : Disk) (l0 : Locals) :
    (makeOscCovInvertedPdg24 outfile d l0).data
      = construct names (execAll assignments l0).parVals (execAll assignments l0).parSigs := rfl

theorem execAll_append (stmts : List Assign) (s : Assign) (l : Locals) :
    execAll (stmts ++ [s]) l = Assign.exec (execAll stmts l) s := by
  simp [execAll, List.foldl_append]

theorem lastAssigned_append (stmts : List Assign) (s : Assign) (arr : Arr) (idx : Nat) :
    lastAssigned (stmts ++ [s]) arr idx
      = if s.arr = arr ∧ s.idx = idx then some s.val else lastAssigned stmts arr idx := by
  unfold lastAssigned assignsTo
  rw [List.filter_append]
  by_cases h : s.arr = arr ∧ s.idx = idx
  · rw [if_pos h]
    have : List.filter (fun s => decide (s.arr = arr ∧ s.idx = idx)) [s] = [s] := by
      simp [List.filter, h]
    rw [this, List.getLast?_append]
    simp
  · rw [if_neg h]
    have : List.filter (fun s => decide (s.arr = arr ∧ s.idx = idx)) [s] = [] := by
      simp [List.filter, h]
    rw [this, List.append_nil]

/-- After a block of assignments a cell of `parVals` holds the value of the
last statement that assigned to it, or what it held before when there is none. -/
theorem execAll_parVals (stmts : List Assign) (l : Locals) (k : Fin N) :
    (execAll stmts l).parVals k = (lastAssigned stmts .parVals k.val).getD (l.parVals k) := by
  induction stmts using List.reverseRecOn with
  | nil => rfl
  | append_singleton stmts s ih =>
    rw [execAll_append, lastAssigned_append]
    obtain ⟨arr, idx, val⟩ := s
    cases arr <;> by_cases h : idx = k.val <;>
      simp [Assign.exec, store, h, ih, eq_comm]

/-- After a block of assignments a cell of `parSigs` holds the value of the
last statement that assigned to it, or what it held before when there is none. -/
theorem execAll_parSigs (stmts : List Assign) (l : Locals) (k : Fin N) :
    (execAll stmts l).parSigs k = (lastAssigned stmts .parSigs k.val).getD (l.parSigs k) := by
  induction stmts using List.reverseRecOn with
  | nil => rfl
  | append_singleton stmts s ih =>
    rw [execAll_append, lastAssigned_append]
    obtain ⟨arr, idx, val⟩ := s
    cases arr <;> by_cases h : idx = k.val <;>
      simp [Assign.exec, store, h, ih, eq_comm]

section

variable {α : Type}

theorem buildCov_diagonal [Zero α] [Mul α] (n : Nat) (parSigs : Fin n → α) :
    (buildCov n parSigs).diagonal
      = (List.finRange n).map (fun i => some (parSigs i * parSigs i)) := by
  unfold TMatrixT.diagonal
  rw [(buildCov_square n parSigs).1, ← List.map_coe_finRange, List.map_map]
  apply List.map_congr_left
  intro i _
  simp [buildCov_get]

theorem buildCov_offDiagonal [Zero α] [Mul α] (n : Nat) (parSigs : Fin n → α)
    (x : Option α) (hx : x ∈ (buildCov n parSigs).offDiagonal) : x = some 0 := by
  unfold TMatrixT.offDiagonal at hx
  rw [(buildCov_square n parSigs).1, (buildCov_square n parSigs).2.1] at hx
  simp only [List.mem_flatMap, List.mem_map, List.mem_filter, List.mem_range] at hx
  obtain ⟨i, hi, j, ⟨hj, hji⟩, rfl⟩ := hx
  have hne : (⟨i, hi⟩ : Fin n) ≠ ⟨j, hj⟩ := by
    intro e
    have := congrArg Fin.val e
    simp at hji
    exact hji this.symm
  have := buildCov_get n parSigs ⟨i, hi⟩ ⟨j, hj⟩
  simpa [hne] using this

theorem buildCov_offDiagonal_length [Zero α] [Mul α] (parSigs : Fin N → α) :
    (buildCov N parSigs).offDiagonal.length = 42 := by
  unfold TMatrixT.offDiagonal
  rw [(buildCov_square N parSigs).1, (buildCov_square N parSigs).2.1]
  simp only [List.length_flatMap, Function.comp_def, List.length_map]
  rfl

theorem buildNameArray_cont (names : List String) :
    (buildNameArray names).fCont = names.map TObjString.mk := by
  unfold buildNameArray
  have key : ∀ (l : List (Fin names.length)) (a : TObjArray),
      (l.foldl (fun nameArray i => nameArray.Add ⟨names.get i⟩) a).fCont
        = a.fCont ++ l.map (fun i => ⟨names.get i⟩) := by
    intro l
    induction l with
    | nil => intro a; simp
    | cons i l ih =>
      intro a
      rw [List.foldl_cons, ih]
      simp [TObjArray.Add]
  rw [key]
  simp only [TObjArray.new, TObjArray.SetName, List.nil_append]
  conv_rhs => rw [← List.finRange_map_get names]
  rw [List.map_map]
  rfl

end

/-! ## The properties -/

/-- C1: for every size and every array of uncertainties, entry (i,i) of the
matrix built by the construction step (zero the matrix, then fill the
diagonal) is the product of uncertainty i with itself; and in
makeOscCovInvertedPdg24, whatever the disk and the initial storage, every slot
i of parSigs has a last assigned value v and cov(i,i) is v * v. -/
theorem C1_cov_diagonal_is_square :
    (∀ (α : Type) [Zero α] [Mul α] (n : Nat) (parSigs : Fin n → α) (i : Fin n),
      (buildCov n parSigs).get i.val i.val = some (parSigs i * parSigs i)) ∧
    (∀ (outfile : String) (d : Disk) (l0 : Locals) (i : Fin N),
      ∃ v, lastAssigned assignments .parSigs i.val = some v ∧
        (execAll assignments l0).parSigs i = v ∧
        (makeOscCovInvertedPdg24 outfile d l0).data.cov.get i.val i.val = some (v * v)) := by
  constructor
  · intro α _ _ n parSigs i
    rw [buildCov_get]
    simp
  · intro outfile d l0 i
    have hsome : ∀ k : Fin N, (lastAssigned assignments .parSigs k.val).isSome = true := by
      decide
    obtain ⟨v, hv⟩ := Option.isSome_iff_exists.mp (hsome i)
    have hfin : (execAll assignments l0).parSigs i = v := by
      rw [execAll_parSigs, hv]
      rfl
    refine ⟨v, hv, hfin, ?_⟩
    rw [data_eq]
    show (buildCov N (execAll assignments l0).parSigs).get i.val i.val = _
    rw [buildCov_get, hfin]
    simp

/-- C2: for every size, every array of uncertainties and every pair of
distinct in-range indices i and j, entry (i,j) of the matrix built by the
construction step is 0. -/
theorem C2_cov_off_diagonal_is_zero (α : Type) [Zero α] [Mul α] (n : Nat)
    (parSigs : Fin n → α) (i j : Fin n) (h : i ≠ j) :
    (buildCov n parSigs).get i.val j.val = some 0 := by
  rw [buildCov_get]
  simp [h]

/-- Witness of C2 on a 3 x 3 instance over the rationals. -/
theorem C2_cov_off_diagonal_is_zero_witness :
    (0 : Fin 3) ≠ 2 ∧
      (buildCov 3 (fun k : Fin 3 => (k.val : ℚ) + 1)).get (0 : Fin 3).val (2 : Fin 3).val
        = some 0 :=
  ⟨by decide, C2_cov_off_diagonal_is_zero ℚ 3 _ 0 2 (by decide)⟩

/-- C3, as stated, fails: with the local storage initially all zero the prior
vector is not the list of central values of the claim (entry 5 is 0, not
0.22). -/
theorem C3_prior_is_not_claimed_list :
    (makeOscCovInvertedPdg24 defaultOutfile emptyDisk zeroLocals).data.prior.fElements
      ≠ [0.307, 0.0219, 0.553, 7.53e-5, 2.529e-3, 0.22, 0.5] := by
  intro h
  have h5 := congrArg (fun l => l[5]?) h
  have hl : (makeOscCovInvertedPdg24 defaultOutfile emptyDisk zeroLocals).data.prior.fElements[5]?
      = some 0 := rfl
  simp only [hl] at h5
  norm_num at h5

/-- C3, amended: whatever the disk and the initial storage, the prior vector
has 7 entries and those at indices 0, 1, 2, 3, 4 and 6 are 0.307, 0.0219,
0.553, 7.53e-5, 2.529e-3 and 0.5. -/
theorem C3_prior_entries_assigned (outfile : String) (d : Disk) (l0 : Locals) :
    ∃ x, (makeOscCovInvertedPdg24 outfile d l0).data.prior.fElements
      = [0.307, 0.0219, 0.553, 7.53e-5, 2.529e-3, x, 0.5] :=
  ⟨l0.parVals ⟨5, by decide⟩, rfl⟩

/-- C4: in the reference instance, whatever the disk and the initial storage,
the diagonal of the covariance matrix is exactly 1.69e-4, 4.9e-7, 5.76e-4,
3.24e-12, 8.41e-10, 0.0484, 100 as rationals, and its off-diagonal entries are
42 in number and all 0; the uncertainties it is built from are 0.013, 0.0007,
0.024, 1.8e-6, 2.9e-5, 0.22, 10.0. -/
theorem C4_reference_covariance (outfile : String) (d : Disk) (l0 : Locals) :
    (makeOscCovInvertedPdg24 outfile d l0).data.cov.diagonal
        = [some 1.69e-4, some 4.9e-7, some 5.76e-4, some 3.24e-12, some 8.41e-10,
           some 0.0484, some 100.0] ∧
      (makeOscCovInvertedPdg24 outfile d l0).data.cov.offDiagonal
        = List.replicate 42 (some 0) ∧
      List.ofFn (execAll assignments l0).parSigs
        = [0.013, 0.0007, 0.024, 1.8e-6, 2.9e-5, 0.22, 10.0] := by
  rw [data_eq]
  refine ⟨?_, ?_, rfl⟩
  · show (buildCov N (execAll assignments l0).parSigs).diagonal = _
    rw [buildCov_diagonal]
    have hfin : List.finRange N
        = [⟨0, by decide⟩, ⟨1, by decide⟩, ⟨2, by decide⟩, ⟨3, by decide⟩, ⟨4, by decide⟩,
           ⟨5, by decide⟩, ⟨6, by decide⟩] := by decide
    rw [hfin]
    simp only [List.map_cons, List.map_nil, execAll_parSigs]
    simp only [show lastAssigned assignments .parSigs 0 = some 0.013 from rfl,
      show lastAssigned assignments .parSigs 1 = some 0.07e-2 from rfl,
      show lastAssigned assignments .parSigs 2 = some 0.024 from rfl,
      show lastAssigned assignments .parSigs 3 = some 0.18e-5 from rfl,
      show lastAssigned assignments .parSigs 4 = some 0.029e-3 from rfl,
      show lastAssigned assignments .parSigs 5 = some 0.22 from rfl,
      show lastAssigned assignments .parSigs 6 = some 10.0 from rfl, Option.getD_some]
    norm_num
  · show (buildCov N (execAll assignments l0).parSigs).offDiagonal = _
    rw [List.eq_replicate_iff]
    exact ⟨buildCov_offDiagonal_length _, buildCov_offDiagonal N _⟩

/-- C5: for every names table and every pair of arrays with one cell per
name, the construction step yields a prior vector with exactly as many entries
as there are names and a covariance matrix with exactly that many rows and
columns; in makeOscCovInvertedPdg24 that number is 7, and the name array, the
prior vector and both matrix dimensions have that size. -/
theorem C5_construct_sizes :
    (∀ (α : Type) [Zero α] [Mul α] (names : List String)
        (parVals parSigs : Fin names.length → α),
      (construct names parVals parSigs).prior.fNrows = names.length ∧
      (construct names parVals parSigs).prior.fElements.length = names.length ∧
      (construct names parVals parSigs).cov.fNrows = names.length ∧
      (construct names parVals parSigs).cov.fNcols = names.length ∧
      (construct names parVals parSigs).cov.fElements.length = names.length * names.length ∧
      (construct names parVals parSigs).nameArray.fCont.length = names.length) ∧
    N = 7 ∧
    (∀ (outfile : String) (d : Disk) (l0 : Locals),
      (makeOscCovInvertedPdg24 outfile d l0).data.nameArray.fCont.length = N ∧
      (makeOscCovInvertedPdg24 outfile d l0).data.prior.fNrows = N ∧
      (makeOscCovInvertedPdg24 outfile d l0).data.prior.fElements.length = N ∧
      (makeOscCovInvertedPdg24 outfile d l0).data.cov.fNrows = N ∧
      (makeOscCovInvertedPdg24 outfile d l0).data.cov.fNcols = N ∧
      (makeOscCovInvertedPdg24 outfile d l0).data.cov.fElements.length = N * N) := by
  have gen : ∀ (α : Type) [Zero α] [Mul α] (names : List String)
        (parVals parSigs : Fin names.length → α),
      (construct names parVals parSigs).prior.fNrows = names.length ∧
      (construct names parVals parSigs).prior.fElements.length = names.length ∧
      (construct names parVals parSigs).cov.fNrows = names.length ∧
      (construct names parVals parSigs).cov.fNcols = names.length ∧
      (construct names parVals parSigs).cov.fElements.length = names.length * names.length ∧
      (construct names parVals parSigs).nameArray.fCont.length = names.length := by
    intro α _ _ names parVals parSigs
    obtain ⟨h1, h2, h3⟩ := buildCov_square names.length parSigs
    refine ⟨rfl, ?_, h1, h2, h3, ?_⟩
    · simp [construct, buildPrior, TVectorT.new]
    · simp [construct, buildNameArray_cont]
  refine ⟨gen, rfl, ?_⟩
  intro outfile d l0
  rw [data_eq]
  obtain ⟨h1, h2, h3, h4, h5, h6⟩ :=
    gen ℚ names (execAll assignments l0).parVals (execAll assignments l0).parSigs
  exact ⟨h6, h1, h2, h3, h4, h5⟩

/-- C6: over any linearly ordered ring (the reals in particular), for every
array of uncertainties of any sign, the matrix built by the construction step
is symmetric and every diagonal entry is non-negative. -/
theorem C6_cov_symmetric_nonneg_diagonal (α : Type) [LinearOrderedRing α] (n : Nat)
    (parSigs : Fin n → α) :
    (∀ i j : Nat, (buildCov n parSigs).get i j = (buildCov n parSigs).get j i) ∧
    (∀ i : Fin n, ∃ v, (buildCov n parSigs).get i.val i.val = some v ∧ 0 ≤ v) := by
  constructor
  · intro i j
    by_cases h : i < n ∧ j < n
    · have e1 := buildCov_get n parSigs ⟨i, h.1⟩ ⟨j, h.2⟩
      have e2 := buildCov_get n parSigs ⟨j, h.2⟩ ⟨i, h.1⟩
      simp only [] at e1 e2
      rw [e1, e2]
      by_cases hij : i = j
      · subst hij
        rfl
      · have n1 : (⟨i, h.1⟩ : Fin n) ≠ ⟨j, h.2⟩ := fun e => hij (congrArg Fin.val e)
        have n2 : (⟨j, h.2⟩ : Fin n) ≠ ⟨i, h.1⟩ := fun e => hij (congrArg Fin.val e).symm
        rw [if_neg n1, if_neg n2]
    · rw [buildCov_get_none n parSigs i j h,
        buildCov_get_none n parSigs j i (fun e => h ⟨e.2, e.1⟩)]
  · intro i
    refine ⟨parSigs i * parSigs i, ?_, mul_self_nonneg _⟩
    rw [buildCov_get]
    simp

/-- C7: the names table has exactly 7 entries, pairwise distinct; whatever the
disk and the initial storage, the name array is named osc_param_names and holds
exactly the 7 strings of the table in table order, entry i being names[i]; and
when the file can be created, that array is the entry written under
osc_param_names. -/
theorem C7_names_in_table_order :
    names.length = 7 ∧ names.Nodup ∧
    (∀ (outfile : String) (d : Disk) (l0 : Locals),
      (makeOscCovInvertedPdg24 outfile d l0).data.nameArray.fName = "osc_param_names" ∧
      (makeOscCovInvertedPdg24 outfile d l0).data.nameArray.fCont.map TObjString.fString
        = [ "PMNS_SIN_SQUARED_12", "PMNS_SIN_SQUARED_13", "PMNS_SIN_SQUARED_23",
            "PMNS_DELTA_MASS_SQUARED_21", "PMNS_DELTA_MASS_SQUARED_32", "PMNS_DELTA_CP",
            "PMNS_SIGN_MASS_SQUARED_32" ] ∧
      (∀ i : Fin N,
        (makeOscCovInvertedPdg24 outfile d l0).data.nameArray.fCont[i.val]?
          = some ⟨names.get i⟩) ∧
      (d.writable outfile = true →
        ((makeOscCovInvertedPdg24 outfile d l0).disk.content outfile).map
            (fun keys => keys.filter (fun k => k.name == "osc_param_names"))
          = some [⟨"osc_param_names",
              .objArray (makeOscCovInvertedPdg24 outfile d l0).data.nameArray⟩])) := by
  refine ⟨rfl, by decide, ?_⟩
  intro outfile d l0
  refine ⟨rfl, rfl, ?_, ?_⟩
  · intro i
    rw [data_eq]
    simp only [construct, buildNameArray_cont]
    simp
  · intro hw
    simp [makeOscCovInvertedPdg24, TFile.recreate, hw, TObjArray.Write, TFile.WriteObject,
      TFile.Close, List.filter]

/-- The disk left by the routine when the file can be created: the file at
the given path holds the three entries and every other path is as before. -/
theorem disk_after (outfile : String) (d : Disk) (l0 : Locals)
    (hw : d.writable outfile = true) :
    (makeOscCovInvertedPdg24 outfile d l0).disk
      = { content := fun p =>
            if p = outfile then
              some [ ⟨"osc_param_names",
                      .objArray (makeOscCovInvertedPdg24 outfile d l0).data.nameArray⟩,
                     ⟨"osc_param_priors",
                      .vector (makeOscCovInvertedPdg24 outfile d l0).data.prior⟩,
                     ⟨"osc_param_cov",
                      .matrix (makeOscCovInvertedPdg24 outfile d l0).data.cov⟩ ]
            else d.content p
          writable := d.writable } := by
  simp only [makeOscCovInvertedPdg24, TFile.recreate, hw, TObjArray.Write, TFile.WriteObject,
    TFile.Close, if_true, Bool.false_eq_true, if_false]
  congr 1
  funext p
  by_cases hp : p = outfile
  · simp [hp]
  · simp [hp]

/-- The disk left by the routine when the file cannot be created. -/
theorem disk_after_zombie (outfile : String) (d : Disk) (l0 : Locals)
    (hw : d.writable outfile = false) :
    (makeOscCovInvertedPdg24 outfile d l0).disk = d := by
  simp [makeOscCovInvertedPdg24, TFile.recreate, hw, TObjArray.Write, TFile.WriteObject,
    TFile.Close]

/-- C8: with the output file modelled as the list of its named entries, which
RECREATE resets to empty (the path can be created): for every prior content of
the disk, after the routine runs the file holds exactly three entries, the
whole name array under osc_param_names, the prior vector under
osc_param_priors and the covariance matrix under osc_param_cov, and nothing
else; and running the routine a second time on the same path leaves the disk a
single run leaves (in particular with the same initial storage both times). -/
theorem C8_recreate_three_entries (outfile : String) (d : Disk) (l0 l1 : Locals)
    (hw : d.writable outfile = true) :
    (makeOscCovInvertedPdg24 outfile d l0).disk.content outfile
        = some [ ⟨"osc_param_names",
                  .objArray (makeOscCovInvertedPdg24 outfile d l0).data.nameArray⟩,
                 ⟨"osc_param_priors",
                  .vector (makeOscCovInvertedPdg24 outfile d l0).data.prior⟩,
                 ⟨"osc_param_cov",
                  .matrix (makeOscCovInvertedPdg24 outfile d l0).data.cov⟩ ] ∧
      (makeOscCovInvertedPdg24 outfile d l0).data.nameArray.fCont.map TObjString.fString
        = names ∧
      (makeOscCovInvertedPdg24 outfile (makeOscCovInvertedPdg24 outfile d l0).disk l0).disk
        = (makeOscCovInvertedPdg24 outfile d l0).disk ∧
      (makeOscCovInvertedPdg24 outfile (makeOscCovInvertedPdg24 outfile d l0).disk l1).disk
        = (makeOscCovInvertedPdg24 outfile d l1).disk := by
  have hw1 : (makeOscCovInvertedPdg24 outfile d l0).disk.writable outfile = true := by
    rw [disk_after outfile d l0 hw]
    exact hw
  have twice : ∀ l : Locals,
      (makeOscCovInvertedPdg24 outfile (makeOscCovInvertedPdg24 outfile d l0).disk l).disk
        = (makeOscCovInvertedPdg24 outfile d l).disk := by
    intro l
    rw [disk_after outfile _ l hw1, disk_after outfile d l hw]
    simp only [data_eq]
    rw [disk_after outfile d l0 hw]
    congr 1
    funext p
    by_cases hp : p = outfile
    · simp [hp]
    · simp [hp]
  refine ⟨?_, rfl, twice l0, twice l1⟩
  rw [disk_after outfile d l0 hw]
  simp

/-- Witness of C8: the default file name on a disk without files where every
path can be written, the storage holding zeros at the first run and ones at
the second. -/
theorem C8_recreate_three_entries_witness :
    emptyDisk.writable defaultOutfile = true ∧
    ((makeOscCovInvertedPdg24 defaultOutfile emptyDisk zeroLocals).disk.content defaultOutfile
        = some [ ⟨"osc_param_names",
                  .objArray
                    (makeOscCovInvertedPdg24 defaultOutfile emptyDisk zeroLocals).data.nameArray⟩,
                 ⟨"osc_param_priors",
                  .vector
                    (makeOscCovInvertedPdg24 defaultOutfile emptyDisk zeroLocals).data.prior⟩,
                 ⟨"osc_param_cov",
                  .matrix
                    (makeOscCovInvertedPdg24 defaultOutfile emptyDisk zeroLocals).data.cov⟩ ] ∧
      (makeOscCovInvertedPdg24 defaultOutfile emptyDisk zeroLocals).data.nameArray.fCont.map
          TObjString.fString = names ∧
      (makeOscCovInvertedPdg24 defaultOutfile
          (makeOscCovInvertedPdg24 defaultOutfile emptyDisk zeroLocals).disk zeroLocals).disk
        = (makeOscCovInvertedPdg24 defaultOutfile emptyDisk zeroLocals).disk ∧
      (makeOscCovInvertedPdg24 defaultOutfile
          (makeOscCovInvertedPdg24 defaultOutfile emptyDisk zeroLocals).disk onesLocals).disk
        = (makeOscCovInvertedPdg24 defaultOutfile emptyDisk onesLocals).disk) :=
  ⟨rfl, C8_recreate_three_entries defaultOutfile emptyDisk zeroLocals onesLocals rfl⟩

/-- C9, as stated, fails: on a disk where no path can be written the file
cannot be opened and none of the three writes stores anything, yet the routine
returns and prints the confirmation listing the three keys. -/
theorem C9_confirmation_printed_on_failure :
    (TFile.recreate readOnlyDisk defaultOutfile).2.zombie = true ∧
    (TObjArray.Write readOnlyDisk (TFile.recreate readOnlyDisk defaultOutfile).2
        (buildNameArray names) "osc_param_names" true).2 = false ∧
    (makeOscCovInvertedPdg24 defaultOutfile readOnlyDisk zeroLocals).disk.content defaultOutfile
      = none ∧
    (makeOscCovInvertedPdg24 defaultOutfile readOnlyDisk zeroLocals).stdout
      = [ "Wrote oscCovInvertedPdg24.root with:",
          "  • osc_param_names (TObjArray, single key)",
          "  • osc_param_priors (TVectorT<double>)",
          "  • osc_param_cov   (TMatrixT<double>)" ] := by
  refine ⟨rfl, rfl, ?_, by decide⟩
  rw [disk_after_zombie _ _ _ rfl]
  rfl

/-- C9, amended: the routine inspects neither the result of opening the file
nor the result of any write: for every file name, disk and initial storage it
returns with the confirmation listing the three keys printed, and when the
file could not be opened the disk is left as it was. -/
theorem C9_confirmation_always_printed (outfile : String) (d : Disk) (l0 : Locals) :
    (makeOscCovInvertedPdg24 outfile d l0).stdout
        = [ "Wrote " ++ outfile ++ " with:",
            "  • osc_param_names (TObjArray, single key)",
            "  • osc_param_priors (TVectorT<double>)",
            "  • osc_param_cov   (TMatrixT<double>)" ] ∧
      ((TFile.recreate d outfile).2.zombie = true →
        (makeOscCovInvertedPdg24 outfile d l0).disk = d) := by
  refine ⟨rfl, ?_⟩
  intro hz
  apply disk_after_zombie
  by_cases hw : d.writable outfile = true
  · simp [TFile.recreate, hw] at hz
  · simpa using hw

/-- C10, as stated, fails: with the local storage initially holding 1 in every
cell, entry 5 of the prior vector is 1, not 0. -/
theorem C10_prior_entry_five_not_zero :
    (makeOscCovInvertedPdg24 defaultOutfile emptyDisk onesLocals).data.prior.get 5 = some 1 ∧
    (makeOscCovInvertedPdg24 defaultOutfile emptyDisk onesLocals).data.prior.get 5 ≠ some 0 := by
  have h : (makeOscCovInvertedPdg24 defaultOutfile emptyDisk onesLocals).data.prior.get 5
      = some 1 := rfl
  refine ⟨h, ?_⟩
  rw [h]
  norm_num

/-- C10, amended: no statement assigns parVals[5], while every other index
0..4 and 6 of parVals is assigned by exactly one statement; the arrays have no
initial value, so for every initial storage cell 5 of parVals keeps the value it
held before the assignments and entry 5 of the prior vector is that value; slot
5 of parSigs is assigned twice, 1.19 then 0.22, and its final value is 0.22. -/
theorem C10_parVals_five_never_assigned :
    assignsTo assignments .parVals 5 = [] ∧
    (∀ k : Fin N, k.val ≠ 5 → (assignsTo assignments .parVals k.val).length = 1) ∧
    (∀ (l0 : Locals), (execAll assignments l0).parVals ⟨5, by decide⟩
        = l0.parVals ⟨5, by decide⟩) ∧
    (∀ (outfile : String) (d : Disk) (l0 : Locals),
      (makeOscCovInvertedPdg24 outfile d l0).data.prior.get 5
        = some (l0.parVals ⟨5, by decide⟩)) ∧
    (assignsTo assignments .parSigs 5).map Assign.val = [1.19, 0.22] ∧
    (∀ (l0 : Locals), (execAll assignments l0).parSigs ⟨5, by decide⟩ = 0.22) :=
  ⟨rfl, by decide, fun _ => rfl, fun _ _ _ => rfl, rfl, fun _ => rfl⟩

end OscCov
